import Mathlib

/-!
Verification of the chunked-transfer `Decoder` (src/src/decoder.rs).

The decoder is modelled over a concrete byte source: a `List Nat` of the
bytes still unread (this corresponds to running the Rust decoder over an
in-memory slice `&[u8]`, as the repository's own tests do).  Bytes are
`Nat`s below 256; byte values appear as literals (13 = CR, 10 = LF,
48 = ASCII `0`, 43 = ASCII `+`).

`usize` arithmetic is modelled as `Nat` with an explicit `2 ^ 64` overflow
bound (64-bit target).
-/

namespace ChunkedTransfer

/-- The `usize` range bound: `usize::MAX + 1` on a 64-bit target. -/
def usizeBound : Nat := 2 ^ 64

/-- One step of `hex digit → value`, as performed per character by
`usize::from_str_radix(_, 16)`: accepts `0-9`, `a-f`, `A-F`. -/
def hexDigitVal (b : Nat) : Option Nat :=
  if 48 ≤ b ∧ b ≤ 57 then some (b - 48)
  else if 97 ≤ b ∧ b ≤ 102 then some (b - 87)
  else if 65 ≤ b ∧ b ≤ 70 then some (b - 55)
  else none

/-- The digit-accumulation loop of `from_str_radix`: checked
`acc * 16 + d` at every step (checked_mul / checked_add on `usize`). -/
def parseHexDigits : List Nat → Nat → Option Nat
  | [], acc => some acc
  | b :: rest, acc =>
    match hexDigitVal b with
    | none => none
    | some d =>
      if acc * 16 + d < usizeBound then parseHexDigits rest (acc * 16 + d)
      else none

/-- `from_str_radix` strips one optional leading `+` sign before the
digits (`-` is not stripped for an unsigned type and fails as a digit). -/
def stripPlus (token : List Nat) : List Nat :=
  match token with
  | [] => []
  | b :: rest => if b = 43 then rest else b :: rest

/-- `usize::from_str_radix(token, 16)` composed with the preceding
`String::from_utf8` check of `read_chunk_size`: any byte that is not an
ASCII hex digit (nor the optional leading `+`) makes one of the two fail,
and both failures map to the same `DecoderError`, so they are modelled as
a single `Option`. -/
def from_str_radix_16 (token : List Nat) : Option Nat :=
  let digits := stripPlus token
  if digits.isEmpty then none else parseHexDigits digits 0

/-- The byte-accumulation loop of `Decoder::read_chunk_size`: pull bytes
one at a time until a CR (13) is seen; `none` models reaching
end-of-source before any CR.  Returns the token (bytes before the CR)
and the rest of the source after the CR. -/
def takeUntilCR : List Nat → Option (List Nat × List Nat)
  | [] => none
  | b :: rest =>
    if b = 13 then some ([], rest)
    else
      match takeUntilCR rest with
      | none => none
      | some (tok, r) => some (b :: tok, r)

/-- `Decoder::read_chunk_size` (decoder.rs lines 57-89): scan to CR,
require LF, parse the token as hexadecimal.  `Except Unit` models
`Result<usize, IoError>`; every failure is the same
`IoError::new(InvalidInput, DecoderError)`. -/
def read_chunk_size (src : List Nat) : Except Unit (Nat × List Nat) :=
  match takeUntilCR src with
  | none => .error ()
  | some (token, rest) =>
    match rest with
    | [] => .error ()
    | b :: rest2 =>
      if b = 10 then
        match from_str_radix_16 token with
        | none => .error ()
        | some n => .ok (n, rest2)
      else .error ()

/-- The decoder state: the unread suffix of the source and
`remaining_chunks_size` (`None` = between chunks, `Some n` = `n` data
bytes of the current chunk still unread). -/
structure Decoder where
  source : List Nat
  remaining_chunks_size : Option Nat
deriving Repr, DecidableEq

/-- The data-reading part of `<Decoder as Read>::read` (decoder.rs lines
122-152), reached with `remaining_chunks_size = Some remaining`.
`self.source.read(buf)` on a slice source copies
`min buf.len() source.len()` bytes, i.e. `src.take bufLen`.  Returns the
bytes written and the new decoder. -/
def readData (src : List Nat) (remaining bufLen : Nat) :
    Except Unit (List Nat × Decoder) :=
  if bufLen < remaining then
    -- second possibility: the caller buffer is smaller than the chunk
    let out := src.take bufLen
    .ok (out, ⟨src.drop bufLen, some (remaining - out.length)⟩)
  else
    -- third possibility: read to the end of the chunk at most
    let out := src.take remaining
    let rest := src.drop remaining
    if out.length = remaining then
      match rest with
      | [] => .error ()
      | b1 :: rest1 =>
        if b1 = 13 then
          match rest1 with
          | [] => .error ()
          | b2 :: rest2 =>
            if b2 = 10 then .ok (out, ⟨rest2, none⟩) else .error ()
        else .error ()
    else
      .ok (out, ⟨rest, some (remaining - out.length)⟩)

/-- `<Decoder<R> as Read>::read` (decoder.rs lines 93-153).  In the
source, after a nonzero chunk size is parsed the function stores it in
`remaining_chunks_size` and calls itself recursively; that recursive
call immediately dispatches to the `Some` branch, i.e. to `readData`,
which is how it is written here. -/
def Decoder.read (d : Decoder) (bufLen : Nat) :
    Except Unit (List Nat × Decoder) :=
  match d.remaining_chunks_size with
  | some c => readData d.source c bufLen
  | none =>
    match read_chunk_size d.source with
    | .error e => .error e
    | .ok (chunk_size, src1) =>
      if chunk_size = 0 then
        -- terminal chunk: require the final CRLF, report 0 bytes
        match src1 with
        | [] => .error ()
        | b1 :: src2 =>
          if b1 = 13 then
            match src2 with
            | [] => .error ()
            | b2 :: src3 =>
              if b2 = 10 then .ok ([], ⟨src3, none⟩) else .error ()
          else .error ()
      else
        readData src1 chunk_size bufLen

/-- The standard read-to-end driver: call `read` with the successive
caller-chosen buffer capacities, stop at the first read that reports 0
bytes (end-of-stream per the `Read` contract), propagate errors, fail if
the capacity schedule runs out first. -/
def decodeLoop : Decoder → List Nat → Except Unit (List Nat)
  | _, [] => .error ()
  | d, c :: caps =>
    match d.read c with
    | .error e => .error e
    | .ok (out, d2) =>
      if out = [] then .ok []
      else
        match decodeLoop d2 caps with
        | .error e => .error e
        | .ok tail => .ok (out ++ tail)

/-- A hex digit character (lowercase), for the encoder side of the
round-trip claims. -/
def hexDigitChar (d : Nat) : Nat := if d < 10 then 48 + d else 87 + d

/-- Big-endian hexadecimal digits of `n` (empty for 0); the first
argument is structural fuel, adequate whenever `n ≤ fuel`. -/
def toHexDigits : Nat → Nat → List Nat
  | 0, _ => []
  | fuel + 1, n =>
    if n = 0 then [] else toHexDigits fuel (n / 16) ++ [hexDigitChar (n % 16)]

/-- `n` printed in hexadecimal (`"0"` for 0), as a byte list. -/
def toHexBytes (n : Nat) : List Nat :=
  if n = 0 then [48] else toHexDigits n n

/-- Modelled from the claim statement (the encoder direction is not part
of this repository): one chunk, `len(s) in hex` CRLF `s` CRLF. -/
def encChunk (s : List Nat) : List Nat :=
  toHexBytes s.length ++ (13 :: 10 :: (s ++ [13, 10]))

/-- A sequence of (nonempty) chunks followed by the terminal
`0\x0d\x0a\x0d\x0a`. -/
def encBody : List (List Nat) → List Nat
  | [] => [48, 13, 10, 13, 10]
  | s :: ss => encChunk s ++ encBody ss

/-- Modelled from the claim statement: encode each nonempty slice as a
chunk, then the terminal chunk. -/
def encStream (ss : List (List Nat)) : List Nat :=
  encBody (ss.filter (fun s => !s.isEmpty))

/-! ### Lemmas on the size-line scanner -/

theorem takeUntilCR_noCR (l : List Nat) (h : 13 ∉ l) : takeUntilCR l = none := by
  induction l with
  | nil => rfl
  | cons b rest ih =>
    have hb : b ≠ 13 := fun hb => h (hb ▸ List.mem_cons_self b rest)
    have hrest : 13 ∉ rest := fun hr => h (List.mem_cons_of_mem b hr)
    simp [takeUntilCR, hb, ih hrest]

theorem takeUntilCR_append (token rest : List Nat) (h : 13 ∉ token) :
    takeUntilCR (token ++ 13 :: rest) = some (token, rest) := by
  induction token with
  | nil => simp [takeUntilCR]
  | cons b tok ih =>
    have hb : b ≠ 13 := fun hb => h (hb ▸ List.mem_cons_self b tok)
    have htok : 13 ∉ tok := fun hr => h (List.mem_cons_of_mem b hr)
    simp [takeUntilCR, hb, ih htok]

/-! ### Lemmas on hexadecimal parsing and printing -/

theorem hexDigitVal_hexDigitChar (d : Nat) (h : d < 16) :
    hexDigitVal (hexDigitChar d) = some d := by
  unfold hexDigitChar hexDigitVal
  by_cases h10 : d < 10
  · simp only [if_pos h10]
    have : 48 ≤ 48 + d ∧ 48 + d ≤ 57 := by omega
    simp [this]
  · simp only [if_neg h10]
    have h1 : ¬(48 ≤ 87 + d ∧ 87 + d ≤ 57) := by omega
    have h2 : 97 ≤ 87 + d ∧ 87 + d ≤ 102 := by omega
    simp [h1, h2]

theorem hexDigitChar_range (d : Nat) (h : d < 16) :
    (48 ≤ hexDigitChar d ∧ hexDigitChar d ≤ 57) ∨
    (97 ≤ hexDigitChar d ∧ hexDigitChar d ≤ 102) := by
  unfold hexDigitChar
  by_cases h10 : d < 10
  · left; simp only [if_pos h10]; omega
  · right; simp only [if_neg h10]; omega

theorem toHexDigits_zero (fuel : Nat) : toHexDigits fuel 0 = [] := by
  cases fuel <;> simp [toHexDigits]

theorem toHexDigits_mem (fuel : Nat) :
    ∀ n b, b ∈ toHexDigits fuel n →
      (48 ≤ b ∧ b ≤ 57) ∨ (97 ≤ b ∧ b ≤ 102) := by
  induction fuel with
  | zero => intro n b hb; simp [toHexDigits] at hb
  | succ fuel ih =>
    intro n b hb
    unfold toHexDigits at hb
    by_cases h0 : n = 0
    · simp [h0] at hb
    · simp only [if_neg h0, List.mem_append, List.mem_singleton] at hb
      rcases hb with hb | hb
      · exact ih (n / 16) b hb
      · exact hb ▸ hexDigitChar_range (n % 16) (Nat.mod_lt n (by omega))

theorem toHexBytes_mem (n b : Nat) (hb : b ∈ toHexBytes n) :
    (48 ≤ b ∧ b ≤ 57) ∨ (97 ≤ b ∧ b ≤ 102) := by
  unfold toHexBytes at hb
  by_cases h0 : n = 0
  · simp [h0] at hb; omega
  · exact toHexDigits_mem n n b (by simpa [h0] using hb)

theorem toHexBytes_noCR (n : Nat) : 13 ∉ toHexBytes n := by
  intro h
  rcases toHexBytes_mem n 13 h with h | h <;> omega

theorem parseHexDigits_append (l1 l2 : List Nat) (acc : Nat) :
    parseHexDigits (l1 ++ l2) acc =
      match parseHexDigits l1 acc with
      | none => none
      | some v => parseHexDigits l2 v := by
  induction l1 generalizing acc with
  | nil => simp [parseHexDigits]
  | cons b l1 ih =>
    simp only [List.cons_append, parseHexDigits]
    cases hexDigitVal b with
    | none => rfl
    | some d =>
      by_cases hlt : acc * 16 + d < usizeBound
      · simp only [if_pos hlt]; exact ih (acc * 16 + d)
      · simp [hlt]

theorem parse_toHexDigits (fuel : Nat) :
    ∀ n, n ≤ fuel → n < usizeBound →
      parseHexDigits (toHexDigits fuel n) 0 = some n := by
  induction fuel with
  | zero =>
    intro n hle _
    interval_cases n
    rfl
  | succ fuel ih =>
    intro n hle hlt
    by_cases h0 : n = 0
    · subst h0; rw [toHexDigits_zero]; rfl
    · unfold toHexDigits
      simp only [if_neg h0]
      rw [parseHexDigits_append]
      have hdiv : n / 16 ≤ fuel := by
        have : n / 16 < n := Nat.div_lt_self (by omega) (by omega)
        omega
      have hdivlt : n / 16 < usizeBound := by
        have := Nat.div_le_self n 16
        omega
      rw [ih (n / 16) hdiv hdivlt]
      simp only [parseHexDigits, hexDigitVal_hexDigitChar (n % 16) (Nat.mod_lt n (by omega))]
      have hmod : n / 16 * 16 + n % 16 = n := by
        have := Nat.div_add_mod n 16
        omega
      rw [hmod, if_pos hlt]

theorem toHexBytes_ne_nil (n : Nat) : toHexBytes n ≠ [] := by
  unfold toHexBytes
  by_cases h0 : n = 0
  · simp [h0]
  · simp only [if_neg h0]
    cases hn : n with
    | zero => exact absurd hn h0
    | succ m =>
      unfold toHexDigits
      simp [h0, hn]

theorem stripPlus_of_head_ne (token : List Nat)
    (h : ∀ b ∈ token, b ≠ 43) : stripPlus token = token := by
  cases token with
  | nil => rfl
  | cons b rest =>
    have : b ≠ 43 := h b (List.mem_cons_self b rest)
    simp [stripPlus, this]

theorem from_str_toHexBytes (n : Nat) (h : n < usizeBound) :
    from_str_radix_16 (toHexBytes n) = some n := by
  unfold from_str_radix_16
  have hne43 : ∀ b ∈ toHexBytes n, b ≠ 43 := by
    intro b hb
    rcases toHexBytes_mem n b hb with hr | hr <;> omega
  rw [stripPlus_of_head_ne _ hne43]
  have hne : (toHexBytes n).isEmpty = false := by
    cases htb : toHexBytes n with
    | nil => exact absurd htb (toHexBytes_ne_nil n)
    | cons a l => rfl
  simp only [hne, Bool.false_eq_true, if_false]
  unfold toHexBytes
  by_cases h0 : n = 0
  · subst h0; rfl
  · simp only [if_neg h0]
    exact parse_toHexDigits n n (le_refl n) h

/-! ### Lemmas on `read_chunk_size` -/

theorem read_chunk_size_token (token rest : List Nat) (h : 13 ∉ token) :
    read_chunk_size (token ++ 13 :: 10 :: rest) =
      match from_str_radix_16 token with
      | none => .error ()
      | some n => .ok (n, rest) := by
  unfold read_chunk_size
  rw [takeUntilCR_append token (10 :: rest) h]
  rfl

theorem read_chunk_size_enc (k : Nat) (rest : List Nat) (h : k < usizeBound) :
    read_chunk_size (toHexBytes k ++ 13 :: 10 :: rest) = .ok (k, rest) := by
  rw [read_chunk_size_token _ _ (toHexBytes_noCR k), from_str_toHexBytes k h]

/-! ### Lemmas on `readData` and `Decoder.read` -/

theorem read_some (src : List Nat) (r n : Nat) :
    Decoder.read ⟨src, some r⟩ n = readData src r n := rfl

/-- A read while mid-chunk delivers the next `c` data bytes when the
buffer is smaller than the chunk remainder (and the source holds them). -/
theorem readData_partial (data tail : List Nat) (c : Nat) (hc : c < data.length) :
    readData (data ++ 13 :: 10 :: tail) data.length c =
      .ok (data.take c,
           ⟨data.drop c ++ 13 :: 10 :: tail, some (data.length - c)⟩) := by
  have hle : c ≤ data.length := le_of_lt hc
  have hle2 : c ≤ (data ++ 13 :: 10 :: tail).length := by
    simp [List.length_append]; omega
  simp only [readData, if_pos hc, List.take_append_of_le_length hle,
    List.drop_append_of_le_length hle, List.length_take_of_le hle2,
    List.length_take_of_le hle]

/-- A read with a buffer at least as large as the chunk remainder
completes the chunk: all its data is delivered and the trailing CRLF is
consumed. -/
theorem readData_complete (data tail : List Nat) (c : Nat) (hc : data.length ≤ c) :
    readData (data ++ 13 :: 10 :: tail) data.length c = .ok (data, ⟨tail, none⟩) := by
  simp only [readData, if_neg (by omega : ¬c < data.length),
    List.take_left, List.drop_left]
  simp

/-- Terminal chunk: parsing `0` CRLF consumes the final CRLF and reports
0 bytes, for any buffer capacity. -/
theorem read_terminal (rest : List Nat) (n : Nat) :
    Decoder.read ⟨48 :: 13 :: 10 :: 13 :: 10 :: rest, none⟩ n =
      .ok ([], ⟨rest, none⟩) := rfl

theorem encBody_cons (s : List Nat) (ss : List (List Nat)) :
    encBody (s :: ss) =
      toHexBytes s.length ++ 13 :: 10 :: (s ++ 13 :: 10 :: encBody ss) := by
  simp [encBody, encChunk, List.append_assoc, List.cons_append]

/-- A read in the between-chunks state at a nonzero-size chunk parses the
size line and continues into the data logic in the same invocation. -/
theorem read_encBody_cons (s : List Nat) (ss : List (List Nat)) (c : Nat)
    (hk : s.length < usizeBound) (hne : s ≠ []) :
    Decoder.read ⟨encBody (s :: ss), none⟩ c =
      readData (s ++ 13 :: 10 :: encBody ss) s.length c := by
  have hs0 : ¬s.length = 0 := by
    have := List.length_pos.mpr hne; omega
  rw [encBody_cons]
  simp only [Decoder.read, read_chunk_size_enc s.length _ hk, hs0, if_false]

/-! ### The decode loop on encoded streams -/

/-- A reachable decoder configuration while decoding an encoded stream:
either between chunks with the encoded remainder of the stream ahead, or
mid-chunk with `data` bytes of the current chunk still undelivered. -/
def chunkState (data : List Nat) (ss : List (List Nat)) : Decoder :=
  if data = [] then ⟨encBody ss, none⟩
  else ⟨data ++ 13 :: 10 :: encBody ss, some data.length⟩

theorem decodeLoop_chunkState :
    ∀ (caps : List Nat) (data : List Nat) (ss : List (List Nat)),
      (∀ s ∈ ss, s ≠ [] ∧ s.length < usizeBound) →
      (∀ x ∈ caps, 0 < x) →
      data.length + ss.flatten.length < caps.length →
      decodeLoop (chunkState data ss) caps = .ok (data ++ ss.flatten) := by
  intro caps
  induction caps with
  | nil =>
    intro data ss _ _ hlen
    simp only [List.length_nil] at hlen
    omega
  | cons c caps ih =>
    intro data ss hss hcaps hlen
    have hc : 0 < c := hcaps c (List.mem_cons_self c caps)
    have hcaps2 : ∀ x ∈ caps, 0 < x := fun x hx => hcaps x (List.mem_cons_of_mem c hx)
    simp only [List.length_cons] at hlen
    by_cases hdata : data = []
    · subst hdata
      cases ss with
      | nil =>
        rw [chunkState, if_pos rfl]
        simp only [decodeLoop, encBody, read_terminal, if_pos rfl]
        simp
      | cons s ss2 =>
        obtain ⟨hsne, hslt⟩ := hss s (List.mem_cons_self s ss2)
        have hss2 : ∀ t ∈ ss2, t ≠ [] ∧ t.length < usizeBound :=
          fun t ht => hss t (List.mem_cons_of_mem s ht)
        have hspos : 0 < s.length := List.length_pos.mpr hsne
        simp only [List.length_nil, List.flatten_cons, List.length_append,
          Nat.zero_add] at hlen
        rw [chunkState, if_pos rfl]
        by_cases hlt : c < s.length
        · -- the first chunk is only partially delivered by this read
          have hdrop : s.drop c ≠ [] := by
            rw [Ne, List.drop_eq_nil_iff]
            omega
          have htake : s.take c ≠ [] := by
            rw [Ne, List.take_eq_nil_iff]
            push_neg
            exact ⟨by omega, hsne⟩
          have hstep := ih (s.drop c) ss2 hss2 hcaps2
            (by rw [List.length_drop]; omega)
          rw [chunkState, if_neg hdrop, List.length_drop] at hstep
          simp only [decodeLoop, read_encBody_cons s ss2 c hslt hsne,
            readData_partial s (encBody ss2) c hlt, if_neg htake, hstep]
          rw [← List.append_assoc, List.take_append_drop]
          simp
        · -- the whole first chunk is delivered and its CRLF consumed
          have hge : s.length ≤ c := by omega
          have hstep := ih [] ss2 hss2 hcaps2 (by simp only [List.length_nil]; omega)
          rw [chunkState, if_pos rfl] at hstep
          simp only [decodeLoop, read_encBody_cons s ss2 c hslt hsne,
            readData_complete s (encBody ss2) c hge, if_neg hsne, hstep]
          simp
    · -- mid-chunk state: `data` bytes of the current chunk still pending
      rw [chunkState, if_neg hdata]
      have hdpos : 0 < data.length := List.length_pos.mpr hdata
      by_cases hlt : c < data.length
      · have hdrop : data.drop c ≠ [] := by
          rw [Ne, List.drop_eq_nil_iff]
          omega
        have htake : data.take c ≠ [] := by
          rw [Ne, List.take_eq_nil_iff]
          push_neg
          exact ⟨by omega, hdata⟩
        have hstep := ih (data.drop c) ss hss hcaps2
          (by rw [List.length_drop]; omega)
        rw [chunkState, if_neg hdrop, List.length_drop] at hstep
        simp only [decodeLoop, read_some,
          readData_partial data (encBody ss) c hlt, if_neg htake, hstep]
        rw [← List.append_assoc, List.take_append_drop]
      · have hge : data.length ≤ c := by omega
        have hstep := ih [] ss hss hcaps2 (by simp only [List.length_nil]; omega)
        rw [chunkState, if_pos rfl] at hstep
        simp only [decodeLoop, read_some,
          readData_complete data (encBody ss) c hge, if_neg hdata, hstep]
        simp

theorem flatten_filter_isEmpty (ss : List (List Nat)) :
    (ss.filter (fun s => !s.isEmpty)).flatten = ss.flatten := by
  induction ss with
  | nil => rfl
  | cons s ss ih =>
    by_cases hs : s.isEmpty
    · have hnil : s = [] := List.isEmpty_iff.mp hs
      simp [List.filter_cons, hs, ih, hnil]
    · simp [List.filter_cons, hs, ih]

/-- The full round trip for positive buffer capacities: decoding the
encoding of any slice sequence yields exactly the concatenation, for any
schedule of positive capacities long enough to reach end-of-stream. -/
theorem decodeLoop_encStream (ss : List (List Nat)) (caps : List Nat)
    (hss : ∀ s ∈ ss, s.length < usizeBound)
    (hcaps : ∀ x ∈ caps, 0 < x)
    (hlen : ss.flatten.length < caps.length) :
    decodeLoop ⟨encStream ss, none⟩ caps = .ok ss.flatten := by
  have hfil : ∀ s ∈ ss.filter (fun s => !s.isEmpty),
      s ≠ [] ∧ s.length < usizeBound := by
    intro s hs
    rw [List.mem_filter] at hs
    refine ⟨?_, hss s hs.1⟩
    have := hs.2
    simp only [Bool.not_eq_true'] at this
    intro hnil
    rw [hnil] at this
    simp at this
  have h := decodeLoop_chunkState caps [] (ss.filter (fun s => !s.isEmpty))
    hfil hcaps (by rw [flatten_filter_isEmpty]; simpa using hlen)
  rw [chunkState, if_pos rfl, flatten_filter_isEmpty] at h
  simpa [encStream] using h

/-! ### Error characterization of the hexadecimal token parser -/

theorem parseHexDigits_bad (l : List Nat) (acc : Nat)
    (h : ∃ b ∈ l, hexDigitVal b = none) : parseHexDigits l acc = none := by
  induction l generalizing acc with
  | nil => obtain ⟨b, hb, _⟩ := h; simp at hb
  | cons b rest ih =>
    obtain ⟨x, hx, hbad⟩ := h
    rcases List.mem_cons.mp hx with hxb | hxr
    · subst hxb
      simp [parseHexDigits, hbad]
    · cases hd : hexDigitVal b with
      | none => simp [parseHexDigits, hd]
      | some d =>
        simp only [parseHexDigits, hd]
        by_cases hlt : acc * 16 + d < usizeBound
        · rw [if_pos hlt]
          exact ih (acc * 16 + d) ⟨x, hxr, hbad⟩
        · rw [if_neg hlt]

theorem parseHexDigits_bound (l : List Nat) :
    ∀ acc v, l ≠ [] → parseHexDigits l acc = some v → v < usizeBound := by
  induction l with
  | nil => intro acc v h _; exact absurd rfl h
  | cons b rest ih =>
    intro acc v _ h
    cases hd : hexDigitVal b with
    | none => simp [parseHexDigits, hd] at h
    | some d =>
      simp only [parseHexDigits, hd] at h
      by_cases hlt : acc * 16 + d < usizeBound
      · rw [if_pos hlt] at h
        cases rest with
        | nil =>
          simp only [parseHexDigits, Option.some.injEq] at h
          omega
        | cons c rest2 => exact ih (acc * 16 + d) v (by simp) h
      · rw [if_neg hlt] at h
        exact absurd h (by simp)

theorem from_str_radix_16_bad (token : List Nat)
    (h : ∃ b ∈ stripPlus token, hexDigitVal b = none) :
    from_str_radix_16 token = none := by
  unfold from_str_radix_16
  by_cases he : (stripPlus token).isEmpty
  · simp [he]
  · simp [he, parseHexDigits_bad _ 0 h]

theorem from_str_radix_16_bound (token : List Nat) (v : Nat)
    (h : from_str_radix_16 token = some v) : v < usizeBound := by
  unfold from_str_radix_16 at h
  by_cases he : (stripPlus token).isEmpty
  · simp [he] at h
  · rw [if_neg he] at h
    refine parseHexDigits_bound (stripPlus token) 0 v ?_ h
    cases hs : stripPlus token with
    | nil => rw [hs] at he; exact absurd rfl he
    | cons a l => simp

/-! ### Characterization of a successful mid-chunk read -/

/-- Any successful `readData` delivers exactly the next
`min bufLen remaining` source bytes (as far as the source reaches) and
decrements `remaining_chunks_size` by exactly that count, clearing it to
`none` precisely when the full chunk remainder was obtained. -/
theorem readData_ok_spec (src : List Nat) (r n : Nat) (out : List Nat)
    (d2 : Decoder) (h : readData src r n = .ok (out, d2)) :
    out = src.take (min n r) ∧ out.length ≤ r ∧
    d2.remaining_chunks_size =
      (if out.length = r then none else some (r - out.length)) := by
  unfold readData at h
  by_cases hn : n < r
  · rw [if_pos hn] at h
    simp only [Except.ok.injEq, Prod.mk.injEq] at h
    obtain ⟨hout, hd⟩ := h
    subst hout
    subst hd
    have hlen : (src.take n).length ≤ n := by
      simp [List.length_take]
    refine ⟨by rw [Nat.min_eq_left (le_of_lt hn)], by omega, ?_⟩
    rw [if_neg (by omega)]
  · rw [if_neg hn] at h
    have hmin : min n r = r := Nat.min_eq_right (Nat.le_of_not_lt hn)
    by_cases hlen : (src.take r).length = r
    · rw [if_pos hlen] at h
      split at h
      · exact absurd h (by simp)
      · split at h
        · split at h
          · exact absurd h (by simp)
          · split at h
            · simp only [Except.ok.injEq, Prod.mk.injEq] at h
              obtain ⟨hout, hd⟩ := h
              subst hout
              subst hd
              exact ⟨by rw [hmin], le_of_eq hlen, by rw [if_pos hlen]⟩
            · exact absurd h (by simp)
        · exact absurd h (by simp)
    · rw [if_neg hlen] at h
      simp only [Except.ok.injEq, Prod.mk.injEq] at h
      obtain ⟨hout, hd⟩ := h
      subst hout
      subst hd
      have : (src.take r).length ≤ r := by simp [List.length_take]
      exact ⟨by rw [hmin], this, by rw [if_neg hlen]⟩

/-! ### Dispatch lemmas for `Decoder.read` in the between-chunks state -/

theorem read_zero_crlf (src src3 : List Nat) (n : Nat)
    (h : read_chunk_size src = .ok (0, 13 :: 10 :: src3)) :
    Decoder.read ⟨src, none⟩ n = .ok ([], ⟨src3, none⟩) := by
  simp [Decoder.read, h]

theorem read_zero_empty (src : List Nat) (n : Nat)
    (h : read_chunk_size src = .ok (0, [])) :
    Decoder.read ⟨src, none⟩ n = .error () := by
  simp [Decoder.read, h]

theorem read_zero_bad1 (src src2 : List Nat) (b1 n : Nat)
    (h : read_chunk_size src = .ok (0, b1 :: src2)) (hb : b1 ≠ 13) :
    Decoder.read ⟨src, none⟩ n = .error () := by
  simp [Decoder.read, h, hb]

theorem read_zero_cr_only (src : List Nat) (n : Nat)
    (h : read_chunk_size src = .ok (0, [13])) :
    Decoder.read ⟨src, none⟩ n = .error () := by
  simp [Decoder.read, h]

theorem read_zero_bad2 (src src3 : List Nat) (b2 n : Nat)
    (h : read_chunk_size src = .ok (0, 13 :: b2 :: src3)) (hb : b2 ≠ 10) :
    Decoder.read ⟨src, none⟩ n = .error () := by
  simp [Decoder.read, h, hb]

theorem read_of_chunk_size_nonzero (src src1 : List Nat) (k n : Nat)
    (h : read_chunk_size src = .ok (k, src1)) (hk : k ≠ 0) :
    Decoder.read ⟨src, none⟩ n = readData src1 k n := by
  simp only [Decoder.read, h]
  rw [if_neg hk]

theorem read_none_of_error (src : List Nat) (n : Nat)
    (h : read_chunk_size src = .error ()) :
    Decoder.read ⟨src, none⟩ n = .error () := by
  simp only [Decoder.read, h]

/-! ## Claim theorems -/

/-- C1, counterexample to the claim as stated: the claim quantifies over
every way the caller's successive read-buffer capacities slice the
output, but a zero-capacity first read on the encoding of `[[65]]`
returns 0 bytes (after consuming the size line), which signals
end-of-stream, so decoding stops with `[]` instead of `[65]`. -/
theorem C1_counterexample :
    decodeLoop ⟨encStream [[65]], none⟩ [0] = .ok [] ∧
    ([] : List Nat) ≠ [65] := by
  exact ⟨rfl, by decide⟩

/-- C1 (amended): for every sequence of byte slices (each of `usize`
length), encoding the nonempty ones as chunks followed by the terminal
chunk and then decoding with `Decoder.read` yields exactly the
concatenation, for every schedule of POSITIVE read-buffer capacities
long enough to reach end-of-stream. -/
theorem C1_roundtrip (ss : List (List Nat)) (caps : List Nat)
    (hss : ∀ s ∈ ss, s.length < usizeBound)
    (hcaps : ∀ x ∈ caps, 0 < x)
    (hlen : ss.flatten.length < caps.length) :
    decodeLoop ⟨encStream ss, none⟩ caps = .ok ss.flatten :=
  decodeLoop_encStream ss caps hss hcaps hlen

theorem C1_roundtrip_witness :
    decodeLoop ⟨encStream [[104, 105], [], [33]], none⟩ [1, 2, 1, 3] =
      .ok ([[104, 105], [], [33]] : List (List Nat)).flatten :=
  C1_roundtrip [[104, 105], [], [33]] [1, 2, 1, 3]
    (by decide) (by decide) (by decide)

/-- C2, counterexample to the claim as stated: with the source exhausted
mid-chunk (size line declares 3 data bytes, none are present), `read`
returns 0 bytes successfully — it does not return an error. -/
theorem C2_counterexample :
    Decoder.read ⟨[51, 13, 10], none⟩ 5 = .ok ([], ⟨[], some 3⟩) := rfl

/-- C2 (amended): end-of-source while expecting FRAMING bytes (start of a
size line, the rest of a size line, its LF, or the chunk-trailing CRLF)
is an error; but end-of-source in chunk-DATA position is propagated as a
successful 0-byte read with the chunk still open, because the decoder
forwards the underlying source's 0-length read result. -/
theorem C2_exhaustion (token data : List Nat) (r n : Nat)
    (htok : 13 ∉ token) :
    (Decoder.read ⟨[], none⟩ n = .error ()) ∧
    (Decoder.read ⟨token, none⟩ n = .error ()) ∧
    (Decoder.read ⟨token ++ [13], none⟩ n = .error ()) ∧
    (0 < r → Decoder.read ⟨[], some r⟩ n = .ok ([], ⟨[], some r⟩)) ∧
    (data.length = r → 0 < r → r ≤ n →
      Decoder.read ⟨data, some r⟩ n = .error ()) := by
  refine ⟨rfl, ?_, ?_, ?_, ?_⟩
  · exact read_none_of_error token n
      (by unfold read_chunk_size; rw [takeUntilCR_noCR token htok])
  · refine read_none_of_error (token ++ [13]) n ?_
    unfold read_chunk_size
    rw [takeUntilCR_append token [] htok]
  · intro hr
    rw [read_some]
    unfold readData
    by_cases hn : n < r
    · simp [hn]
    · rw [if_neg hn]
      simp only [List.take_nil, List.length_nil, List.drop_nil]
      rw [if_neg (by omega), Nat.sub_zero]
  · intro hdl hr hn
    subst hdl
    rw [read_some]
    unfold readData
    rw [if_neg (by omega : ¬n < data.length)]
    simp [List.take_length, List.drop_length]

theorem C2_exhaustion_witness :
    (Decoder.read ⟨[], none⟩ 5 = .error ()) ∧
    (Decoder.read ⟨[51], none⟩ 5 = .error ()) ∧
    (Decoder.read ⟨[51] ++ [13], none⟩ 5 = .error ()) ∧
    (Decoder.read ⟨[], some 2⟩ 5 = .ok ([], ⟨[], some 2⟩)) ∧
    (Decoder.read ⟨[65, 66], some 2⟩ 5 = .error ()) := by
  obtain ⟨h1, h2, h3, h4, h5⟩ := C2_exhaustion [51] [65, 66] 2 5 (by decide)
  exact ⟨h1, h2, h3, h4 (by decide), h5 (by decide) (by decide) (by decide)⟩

/-- C3, counterexample to the claim as stated: a zero-capacity read in
the between-chunks state does advance the decoder materially — here it
consumes the three framing bytes `"1\x0d\x0a"` from the source and sets
`remaining_chunks_size` from `none` to `some 1`. -/
theorem C3_counterexample :
    Decoder.read ⟨[49, 13, 10, 65, 13, 10, 48, 13, 10, 13, 10], none⟩ 0 =
      .ok ([], ⟨[65, 13, 10, 48, 13, 10, 13, 10], some 1⟩) := rfl

/-- C3 (amended): a zero-capacity read reports 0 bytes and is a true
no-op only in the mid-chunk state; in the between-chunks state it parses
and consumes the chunk-size line (and, for the terminal chunk, the final
CRLF) before reporting 0 bytes. -/
theorem C3_zero_capacity (src rest token : List Nat) (r k : Nat) :
    (0 < r → Decoder.read ⟨src, some r⟩ 0 = .ok ([], ⟨src, some r⟩)) ∧
    (Decoder.read ⟨48 :: 13 :: 10 :: 13 :: 10 :: rest, none⟩ 0 =
      .ok ([], ⟨rest, none⟩)) ∧
    (13 ∉ token → from_str_radix_16 token = some k → k ≠ 0 →
      Decoder.read ⟨token ++ 13 :: 10 :: rest, none⟩ 0 =
        .ok ([], ⟨rest, some k⟩)) := by
  refine ⟨?_, read_terminal rest 0, ?_⟩
  · intro hr
    rw [read_some]
    unfold readData
    rw [if_pos hr]
    simp
  · intro htok hk hk0
    rw [read_of_chunk_size_nonzero _ rest k 0
      (by rw [read_chunk_size_token token rest htok, hk]) hk0]
    unfold readData
    rw [if_pos (Nat.pos_of_ne_zero hk0)]
    simp

theorem C3_zero_capacity_witness :
    (Decoder.read ⟨[65], some 1⟩ 0 = .ok ([], ⟨[65], some 1⟩)) ∧
    (Decoder.read ⟨48 :: 13 :: 10 :: 13 :: 10 :: ([] : List Nat), none⟩ 0 =
      .ok ([], ⟨[], none⟩)) ∧
    (Decoder.read ⟨[49] ++ 13 :: 10 :: ([] : List Nat), none⟩ 0 =
      .ok ([], ⟨[], some 1⟩)) := by
  obtain ⟨h1, h2, h3⟩ := C3_zero_capacity [65] [] [49] 1 1
  exact ⟨h1 (by decide), h2, h3 (by decide) (by decide) (by decide)⟩

/-- C4, counterexample to the claim as stated: the token `"+1"` (bytes
43, 49) contains the non-hexadecimal byte `+`, yet `read` succeeds and
treats it as a chunk of size 1, because `usize::from_str_radix` accepts
an optional leading `+` sign. -/
theorem C4_counterexample :
    Decoder.read ⟨[43, 49, 13, 10, 65, 13, 10, 48, 13, 10, 13, 10], none⟩ 5 =
      .ok ([65], ⟨[48, 13, 10, 13, 10], none⟩) := rfl

/-- C4 (amended): the size token is interpreted per
`usize::from_str_radix(_, 16)`: an optional leading `+` followed by
case-insensitive hex digits.  A token that is empty, is only `+`,
contains any other non-hex byte, or denotes a value outside the `usize`
range is rejected, and `read` then fails; in particular decoding
`"m\x0d\x0a\x0d\x0a"` fails. -/
theorem C4_size_token (token token2 rest : List Nat) (n v : Nat) :
    (13 ∉ token → from_str_radix_16 token = none →
      Decoder.read ⟨token ++ 13 :: 10 :: rest, none⟩ n = .error ()) ∧
    (from_str_radix_16 [] = none) ∧
    (from_str_radix_16 [43] = none) ∧
    ((∃ b ∈ stripPlus token, hexDigitVal b = none) →
      from_str_radix_16 token = none) ∧
    (from_str_radix_16 token2 = some v → v < usizeBound) ∧
    (∀ d, d < 6 → hexDigitVal (97 + d) = hexDigitVal (65 + d)) ∧
    (Decoder.read ⟨[109, 13, 10, 13, 10], none⟩ n = .error ()) := by
  refine ⟨?_, rfl, rfl, from_str_radix_16_bad token,
    from_str_radix_16_bound token2 v, ?_, rfl⟩
  · intro htok hnone
    refine read_none_of_error _ n ?_
    rw [read_chunk_size_token token rest htok, hnone]
  · intro d hd
    interval_cases d <;> rfl

theorem C4_size_token_witness :
    (Decoder.read ⟨[109] ++ 13 :: 10 :: [13, 10], none⟩ 5 = .error ()) ∧
    (from_str_radix_16 [] = none) ∧
    (from_str_radix_16 [43] = none) ∧
    (from_str_radix_16 [109] = none) ∧
    (1 < usizeBound) ∧
    (hexDigitVal (97 + 3) = hexDigitVal (65 + 3)) ∧
    (Decoder.read ⟨[109, 13, 10, 13, 10], none⟩ 5 = .error ()) := by
  obtain ⟨h1, h2, h3, h4, h5, h6, h7⟩ :=
    C4_size_token [109] [49] [13, 10] 5 1
  exact ⟨h1 (by decide) (by decide), h2, h3, h4 (by decide), h5 (by decide),
    h6 3 (by decide), h7⟩

/-- C5: a parsed chunk size of 0 makes `read` consume exactly the next
two source bytes, fail unless they are CR then LF, and otherwise report
0 bytes written; decoding `"0\x0d\x0a\x0d\x0a"` alone yields zero bytes
and a clean end-of-stream, not an error. -/
theorem C5_terminal (rest : List Nat) (n b : Nat) :
    (Decoder.read ⟨48 :: 13 :: 10 :: 13 :: 10 :: rest, none⟩ n =
      .ok ([], ⟨rest, none⟩)) ∧
    (b ≠ 13 → Decoder.read ⟨48 :: 13 :: 10 :: b :: rest, none⟩ n = .error ()) ∧
    (b ≠ 10 →
      Decoder.read ⟨48 :: 13 :: 10 :: 13 :: b :: rest, none⟩ n = .error ()) ∧
    (Decoder.read ⟨[48, 13, 10], none⟩ n = .error ()) ∧
    (Decoder.read ⟨[48, 13, 10, 13], none⟩ n = .error ()) ∧
    (decodeLoop ⟨[48, 13, 10, 13, 10], none⟩ [n] = .ok []) := by
  refine ⟨read_terminal rest n, ?_, ?_, rfl, rfl, ?_⟩
  · intro hb
    exact read_zero_bad1 _ rest b n rfl hb
  · intro hb
    exact read_zero_bad2 _ rest b n rfl hb
  · simp [decodeLoop, read_terminal]

theorem C5_terminal_witness :
    (Decoder.read ⟨48 :: 13 :: 10 :: 13 :: 10 :: ([] : List Nat), none⟩ 7 =
      .ok ([], ⟨[], none⟩)) ∧
    (Decoder.read ⟨48 :: 13 :: 10 :: 99 :: ([] : List Nat), none⟩ 7 =
      .error ()) ∧
    (Decoder.read ⟨48 :: 13 :: 10 :: 13 :: 99 :: ([] : List Nat), none⟩ 7 =
      .error ()) ∧
    (Decoder.read ⟨[48, 13, 10], none⟩ 7 = .error ()) ∧
    (Decoder.read ⟨[48, 13, 10, 13], none⟩ 7 = .error ()) ∧
    (decodeLoop ⟨[48, 13, 10, 13, 10], none⟩ [7] = .ok []) := by
  obtain ⟨h1, h2, h3, h4, h5, h6⟩ := C5_terminal [] 7 99
  exact ⟨h1, h2 (by decide), h3 (by decide), h4, h5, h6⟩

/-- C6: every successful `read` from the mid-chunk state delivers
exactly the next `min bufLen r` bytes of the source and decrements
`remaining_chunks_size` by exactly that count — never more, never
batched ahead — clearing it to `none` precisely when the full chunk
remainder was obtained. -/
theorem C6_remaining_invariant (src : List Nat) (r n : Nat)
    (out : List Nat) (d2 : Decoder) (_hr : 0 < r)
    (h : Decoder.read ⟨src, some r⟩ n = .ok (out, d2)) :
    out = src.take (min n r) ∧ out.length ≤ r ∧
    d2.remaining_chunks_size =
      (if out.length = r then none else some (r - out.length)) := by
  rw [read_some] at h
  exact readData_ok_spec src r n out d2 h

theorem C6_remaining_invariant_witness :
    ([65, 66] : List Nat) = ([65, 66, 67, 13, 10] : List Nat).take (min 2 3) ∧
    ([65, 66] : List Nat).length ≤ 3 ∧
    (Decoder.mk [67, 13, 10] (some 1)).remaining_chunks_size =
      (if ([65, 66] : List Nat).length = 3 then none
       else some (3 - ([65, 66] : List Nat).length)) :=
  C6_remaining_invariant [65, 66, 67, 13, 10] 3 2 [65, 66]
    ⟨[67, 13, 10], some 1⟩ (by decide) rfl

/-- C7: decoding a well-formed encoded input yields the same total byte
sequence whether the caller reads 1 byte at a time or with a buffer
large enough for the entire remainder, and that sequence is the decoded
payload. -/
theorem C7_buffer_independence (ss : List (List Nat)) (C : Nat)
    (hss : ∀ s ∈ ss, s.length < usizeBound)
    (_hC : ss.flatten.length ≤ C) (hC0 : 0 < C) :
    decodeLoop ⟨encStream ss, none⟩
        (List.replicate (ss.flatten.length + 1) 1) =
      decodeLoop ⟨encStream ss, none⟩
        (List.replicate (ss.flatten.length + 1) C) ∧
    decodeLoop ⟨encStream ss, none⟩
        (List.replicate (ss.flatten.length + 1) 1) = .ok ss.flatten := by
  have h1 := decodeLoop_encStream ss (List.replicate (ss.flatten.length + 1) 1)
    hss (fun x hx => by rw [List.eq_of_mem_replicate hx]; omega)
    (by simp only [List.length_replicate]; omega)
  have h2 := decodeLoop_encStream ss (List.replicate (ss.flatten.length + 1) C)
    hss (fun x hx => by rw [List.eq_of_mem_replicate hx]; exact hC0)
    (by simp only [List.length_replicate]; omega)
  exact ⟨h1.trans h2.symm, h1⟩

theorem C7_buffer_independence_witness :
    decodeLoop ⟨encStream [[104, 105]], none⟩
        (List.replicate (([[104, 105]] : List (List Nat)).flatten.length + 1) 1) =
      decodeLoop ⟨encStream [[104, 105]], none⟩
        (List.replicate (([[104, 105]] : List (List Nat)).flatten.length + 1) 2) ∧
    decodeLoop ⟨encStream [[104, 105]], none⟩
        (List.replicate (([[104, 105]] : List (List Nat)).flatten.length + 1) 1) =
      .ok ([[104, 105]] : List (List Nat)).flatten :=
  C7_buffer_independence [[104, 105]] 2 (by decide) (by decide) (by decide)

/-- C8: in a size line, the byte after the terminating CR must be LF;
any other byte, or end-of-source there, makes `read` fail; in
particular decoding `"3\x0dhel\x0d\x0ab\x0d\x0alo world!!!\x0d\x0a0\x0d\x0a"`
fails. -/
theorem C8_size_line_lf (token rest : List Nat) (b n : Nat)
    (htok : 13 ∉ token) :
    (b ≠ 10 → Decoder.read ⟨token ++ 13 :: b :: rest, none⟩ n = .error ()) ∧
    (Decoder.read ⟨token ++ [13], none⟩ n = .error ()) ∧
    (Decoder.read ⟨[51, 13, 104, 101, 108, 13, 10, 98, 13, 10, 108, 111, 32,
      119, 111, 114, 108, 100, 33, 33, 33, 13, 10, 48, 13, 10], none⟩ n =
      .error ()) := by
  refine ⟨?_, ?_, rfl⟩
  · intro hb
    refine read_none_of_error _ n ?_
    unfold read_chunk_size
    rw [takeUntilCR_append token (b :: rest) htok]
    simp [hb]
  · refine read_none_of_error _ n ?_
    unfold read_chunk_size
    rw [takeUntilCR_append token [] htok]

theorem C8_size_line_lf_witness :
    (Decoder.read ⟨[51] ++ 13 :: 104 :: ([] : List Nat), none⟩ 9 =
      .error ()) ∧
    (Decoder.read ⟨[51] ++ [13], none⟩ 9 = .error ()) ∧
    (Decoder.read ⟨[51, 13, 104, 101, 108, 13, 10, 98, 13, 10, 108, 111, 32,
      119, 111, 114, 108, 100, 33, 33, 33, 13, 10, 48, 13, 10], none⟩ 9 =
      .error ()) := by
  obtain ⟨h1, h2, h3⟩ := C8_size_line_lf [51] [] 104 9 (by decide)
  exact ⟨h1 (by decide), h2, h3⟩

/-- C9: parsing a nonzero chunk size continues into the data-reading
logic within the same `read` invocation with the same caller buffer, and
delivers data (never 0 bytes merely to report the size line was parsed,
provided the buffer is nonempty and the source has bytes); the worked
example `"3\x0d\x0ahel\x0d\x0ab\x0d\x0alo world!!!\x0d\x0a0\x0d\x0a\x0d\x0a"`
decodes to exactly `"hello world!!!"`. -/
theorem C9_nonzero_continues (token rest : List Nat) (k n : Nat)
    (htok : 13 ∉ token) (hk : from_str_radix_16 token = some k)
    (hk0 : k ≠ 0) :
    (Decoder.read ⟨token ++ 13 :: 10 :: rest, none⟩ n = readData rest k n) ∧
    (∀ out d2, readData rest k n = .ok (out, d2) → 0 < n → rest ≠ [] →
      out ≠ []) ∧
    (decodeLoop ⟨[51, 13, 10, 104, 101, 108, 13, 10, 98, 13, 10, 108, 111,
        32, 119, 111, 114, 108, 100, 33, 33, 33, 13, 10, 48, 13, 10, 13, 10],
        none⟩ [20, 20, 20] =
      .ok [104, 101, 108, 108, 111, 32, 119, 111, 114, 108, 100,
        33, 33, 33]) := by
  refine ⟨?_, ?_, rfl⟩
  · exact read_of_chunk_size_nonzero _ rest k n
      (by rw [read_chunk_size_token token rest htok, hk]) hk0
  · intro out d2 h hn hrest
    obtain ⟨hout, -, -⟩ := readData_ok_spec rest k n out d2 h
    rw [hout, Ne, List.take_eq_nil_iff]
    push_neg
    refine ⟨?_, hrest⟩
    have : 0 < k := Nat.pos_of_ne_zero hk0
    omega

theorem C9_nonzero_continues_witness :
    (Decoder.read ⟨[51] ++ 13 :: 10 :: [104, 101, 108, 13, 10, 98, 13, 10,
        108, 111, 32, 119, 111, 114, 108, 100, 33, 33, 33, 13, 10, 48, 13,
        10, 13, 10], none⟩ 20 =
      readData [104, 101, 108, 13, 10, 98, 13, 10, 108, 111, 32, 119, 111,
        114, 108, 100, 33, 33, 33, 13, 10, 48, 13, 10, 13, 10] 3 20) ∧
    (([104, 101, 108] : List Nat) ≠ []) ∧
    (decodeLoop ⟨[51, 13, 10, 104, 101, 108, 13, 10, 98, 13, 10, 108, 111,
        32, 119, 111, 114, 108, 100, 33, 33, 33, 13, 10, 48, 13, 10, 13, 10],
        none⟩ [20, 20, 20] =
      .ok [104, 101, 108, 108, 111, 32, 119, 111, 114, 108, 100,
        33, 33, 33]) := by
  obtain ⟨h1, h2, h3⟩ := C9_nonzero_continues [51]
    [104, 101, 108, 13, 10, 98, 13, 10, 108, 111, 32, 119, 111, 114, 108,
      100, 33, 33, 33, 13, 10, 48, 13, 10, 13, 10] 3 20
    (by decide) (by decide) (by decide)
  exact ⟨h1, h2 [104, 101, 108] ⟨[98, 13, 10, 108, 111, 32, 119,
    111, 114, 108, 100, 33, 33, 33, 13, 10, 48, 13, 10, 13, 10], none⟩
    rfl (by decide) (by decide), h3⟩

/-- C10: after the terminal chunk is consumed `remaining_chunks_size` is
still `none` and the final CRLF has been consumed; a further `read` with
a nonempty buffer parses a fresh size line: it errors if the source is
exhausted, and otherwise decodes following bytes as a new chunked stream
(here `"1\x0d\x0aA\x0d\x0a..."` yields the byte 65) instead of
returning 0 again. -/
theorem C10_read_after_eos (rest : List Nat) (n : Nat) :
    (Decoder.read ⟨48 :: 13 :: 10 :: 13 :: 10 :: rest, none⟩ n =
      .ok ([], ⟨rest, none⟩)) ∧
    (Decoder.read ⟨[], none⟩ n = .error ()) ∧
    (0 < n → Decoder.read ⟨49 :: 13 :: 10 :: 65 :: 13 :: 10 :: rest, none⟩ n =
      .ok ([65], ⟨rest, none⟩)) := by
  refine ⟨read_terminal rest n, rfl, ?_⟩
  intro hn
  have key : Decoder.read ⟨49 :: 13 :: 10 :: 65 :: 13 :: 10 :: rest, none⟩ n =
      readData (65 :: 13 :: 10 :: rest) 1 n :=
    read_of_chunk_size_nonzero _ _ 1 n rfl (by decide)
  rw [key]
  unfold readData
  rw [if_neg (by omega : ¬n < 1)]
  rfl

theorem C10_read_after_eos_witness :
    (Decoder.read ⟨48 :: 13 :: 10 :: 13 :: 10 :: ([] : List Nat), none⟩ 1 =
      .ok ([], ⟨[], none⟩)) ∧
    (Decoder.read ⟨[], none⟩ 1 = .error ()) ∧
    (Decoder.read ⟨49 :: 13 :: 10 :: 65 :: 13 :: 10 :: ([] : List Nat),
        none⟩ 1 = .ok ([65], ⟨[], none⟩)) := by
  obtain ⟨h1, h2, h3⟩ := C10_read_after_eos [] 1
  exact ⟨h1, h2, h3 (by decide)⟩

end ChunkedTransfer
